import Mathlib

/-!
Verification of the ordered-key tree layer of the repository
(`internal/tree/tree.go`) and the insert-conflict hooks
(`internal/database` conflict actions).

The tree code is translated function by function from `tree.go`.
The collaborators that the tree consumes but whose sources are not part
of the reviewed tree (the typed value encoding, the composite `Key`, the
byte-level session) are modelled from the specification sections that
state their contracts (spec sections 3, 4.A, 4.B, 4.D, 6); each such
definition carries a doc comment saying so.

Bytes are modelled as natural numbers below 256 inside `List Nat`;
machine integers (`uint64`) as `Nat` with explicit truncation by
`% 2 ^ 64` at the operations where Go truncates.
-/

namespace Genji

/-- A raw byte string of the flat key space. -/
abbrev Bytes := List Nat

/-- Lexicographic strict order on byte strings, as the byte-oriented
session compares keys. -/
def bytesLt : Bytes → Bytes → Bool
  | _, [] => false
  | [], _ :: _ => true
  | a :: as, b :: bs => a < b || (a == b && bytesLt as bs)

/-- Non-strict lexicographic order on byte strings. -/
def bytesLe (a b : Bytes) : Bool := !(bytesLt b a)

theorem bytesLt_nil_right (a : Bytes) : bytesLt a [] = false := by
  cases a <;> rfl

theorem bytesLt_append_left (a r : Bytes) : bytesLt (a ++ r) a = false := by
  induction a with
  | nil => exact bytesLt_nil_right r
  | cons x xs ih => simp [bytesLt, ih]

theorem bytesLt_irrefl (a : Bytes) : bytesLt a a = false := by
  have h := bytesLt_append_left a []
  rwa [List.append_nil] at h

theorem bytesLt_append_cons (a : Bytes) (x : Nat) (r : Bytes) :
    bytesLt a (a ++ x :: r) = true := by
  induction a with
  | nil => simp [bytesLt]
  | cons y ys ih => simp [bytesLt, ih]

theorem bytesLe_refl (a : Bytes) : bytesLe a a = true := by
  simp [bytesLe, bytesLt_irrefl]

theorem bytesLe_append (a r : Bytes) : bytesLe a (a ++ r) = true := by
  simp [bytesLe, bytesLt_append_left]

theorem bytesLt_trans {a b c : Bytes} (hab : bytesLt a b = true)
    (hbc : bytesLt b c = true) : bytesLt a c = true := by
  induction a generalizing b c with
  | nil =>
    cases c with
    | nil => cases b <;> simp [bytesLt] at hab hbc
    | cons z zs => simp [bytesLt]
  | cons x xs ih =>
    cases b with
    | nil => simp [bytesLt] at hab
    | cons y ys =>
      cases c with
      | nil => simp [bytesLt] at hbc
      | cons z zs =>
        simp only [bytesLt, Bool.or_eq_true, Bool.and_eq_true,
          decide_eq_true_eq, beq_iff_eq] at hab hbc ⊢
        rcases hab with h1 | ⟨rfl, h1⟩ <;> rcases hbc with h2 | ⟨rfl, h2⟩
        · exact Or.inl (Nat.lt_trans h1 h2)
        · exact Or.inl h1
        · exact Or.inl h2
        · exact Or.inr ⟨rfl, ih h1 h2⟩

theorem bytesLt_asymm {a b : Bytes} (hab : bytesLt a b = true) :
    bytesLt b a = false := by
  induction a generalizing b with
  | nil => exact bytesLt_nil_right b
  | cons x xs ih =>
    cases b with
    | nil => simp [bytesLt] at hab
    | cons y ys =>
      simp only [bytesLt, Bool.or_eq_true, Bool.and_eq_true,
        decide_eq_true_eq, beq_iff_eq] at hab
      rcases hab with h | ⟨rfl, h⟩
      · have h1 : ¬ y < x := by omega
        have h2 : y ≠ x := by omega
        simp [bytesLt, h1, h2]
      · simp [bytesLt, ih h]

/-- Witnesses that two byte strings differ strictly at some aligned
position: a common prefix followed by a strictly smaller byte on the
left.  Every extension of the left string stays below every extension
of the right one. -/
inductive LtAt : Bytes → Bytes → Prop
  | head (x y : Nat) (xs ys : Bytes) : x < y → LtAt (x :: xs) (y :: ys)
  | tail (a : Nat) (xs ys : Bytes) : LtAt xs ys → LtAt (a :: xs) (a :: ys)

theorem LtAt.bytesLt_append {a b : Bytes} (h : LtAt a b) (r s : Bytes) :
    bytesLt (a ++ r) (b ++ s) = true := by
  induction h with
  | head x y xs ys hxy => simp [bytesLt, hxy]
  | tail z xs ys _ ih => simp [bytesLt, ih]

/-- Modelled from the spec: the number of base 256 digits of an
unsigned 64 bit integer (`internal/encoding` is not part of the
reviewed sources).  Correct for every `n < 2 ^ 64`, which is the range
of the Go `uint64` namespace type. -/
def byteWidth (n : Nat) : Nat :=
  if n = 0 then 0
  else if n < 256 then 1
  else if n < 65536 then 2
  else if n < 16777216 then 3
  else if n < 4294967296 then 4
  else if n < 1099511627776 then 5
  else if n < 281474976710656 then 6
  else if n < 72057594037927936 then 7
  else 8

/-- Big-endian base 256 digits of `n`, padded to width `w`. -/
def beBytes : Nat → Nat → Bytes
  | 0, _ => []
  | w + 1, n => n / 256 ^ w :: beBytes w (n % 256 ^ w)

/-- Modelled from the spec: `encoding.EncodeInt`, the order-preserving
variable-length big-endian integer encoding that prefixes every key
with its namespace (`internal/encoding` is not part of the reviewed
sources).  A length byte followed by the big-endian digits; the length
byte is at most 8 for `uint64` inputs, so the tag position never holds
`0xFF`, as the spec requires. -/
def encodeInt (n : Nat) : Bytes :=
  byteWidth n :: beBytes (byteWidth n) n

set_option maxHeartbeats 1600000 in
theorem byteWidth_mono {n m : Nat} (h : n ≤ m) : byteWidth n ≤ byteWidth m := by
  unfold byteWidth
  split_ifs <;> omega

theorem lt_pow_byteWidth {n : Nat} (h : n < 2 ^ 64) : n < 256 ^ byteWidth n := by
  unfold byteWidth
  split_ifs <;> norm_num <;> omega

theorem beBytes_LtAt : ∀ (w n m : Nat), n < m → m < 256 ^ w →
    LtAt (beBytes w n) (beBytes w m)
  | 0, n, m, h, hm => by norm_num at hm; omega
  | w + 1, n, m, h, hm => by
    have hq : n / 256 ^ w ≤ m / 256 ^ w := Nat.div_le_div_right (Nat.le_of_lt h)
    rcases Nat.lt_or_ge (n / 256 ^ w) (m / 256 ^ w) with hlt | hge
    · exact LtAt.head _ _ _ _ hlt
    · have heq : n / 256 ^ w = m / 256 ^ w := Nat.le_antisymm hq hge
      have h1 : 256 ^ w * (n / 256 ^ w) + n % 256 ^ w = n := Nat.div_add_mod n (256 ^ w)
      have h2 : 256 ^ w * (m / 256 ^ w) + m % 256 ^ w = m := Nat.div_add_mod m (256 ^ w)
      rw [← heq] at h2
      have hr : n % 256 ^ w < m % 256 ^ w := by
        rw [← h1, ← h2] at h
        exact Nat.lt_of_add_lt_add_left h
      have hrm : m % 256 ^ w < 256 ^ w :=
        Nat.mod_lt _ (Nat.pos_pow_of_pos w (by norm_num))
      show LtAt (n / 256 ^ w :: beBytes w (n % 256 ^ w))
        (m / 256 ^ w :: beBytes w (m % 256 ^ w))
      rw [heq]
      exact LtAt.tail _ _ _ (beBytes_LtAt w _ _ hr hrm)

theorem encodeInt_LtAt {n m : Nat} (h : n < m) (hm : m < 2 ^ 64) :
    LtAt (encodeInt n) (encodeInt m) := by
  rcases Nat.lt_or_ge (byteWidth n) (byteWidth m) with hlt | hge
  · exact LtAt.head _ _ _ _ hlt
  · have heq : byteWidth n = byteWidth m :=
      Nat.le_antisymm (byteWidth_mono (Nat.le_of_lt h)) hge
    unfold encodeInt
    rw [heq]
    exact LtAt.tail _ _ _ (beBytes_LtAt _ n m h (heq ▸ lt_pow_byteWidth hm))

/-- Strict separation of encoded namespaces: any extension of a smaller
namespace prefix sorts strictly below any extension of a larger one. -/
theorem encodeInt_sep {n m : Nat} (h : n < m) (hm : m < 2 ^ 64) (r s : Bytes) :
    bytesLt (encodeInt n ++ r) (encodeInt m ++ s) = true :=
  (encodeInt_LtAt h hm).bytesLt_append r s

/-- SortOrder is a 64 bit unsigned integer holding the per-component
sort direction; bit `63 - i` carries component `i`
(`tree.go`, type `SortOrder`). -/
structure SortOrder where
  val : Nat

/-- `SortOrder.IsDesc` from `tree.go`: reports whether component `i`
is descending.  The Go method panics when `i > 63`; the panic is
modelled by `none`.  The index is a Go `int`, hence `Int` here; for a
negative index the bounds check passes and the two over-wide shifts
produce zero, exactly as Go defines shifts by 64 or more. -/
def SortOrder.IsDesc (o : SortOrder) (i : Int) : Option Bool :=
  if 63 < i then none
  else
    let s := (63 - i).toNat
    let mask := (1 <<< s) % 2 ^ 64
    some ((o.val &&& mask) >>> s != 0)

/-- `SortOrder.SetDesc` from `tree.go`; `none` models the panic on
`i > 63`. -/
def SortOrder.SetDesc (o : SortOrder) (i : Int) : Option SortOrder :=
  if 63 < i then none
  else
    let s := (63 - i).toNat
    let mask := (1 <<< s) % 2 ^ 64
    some ⟨o.val ||| mask⟩

/-- `SortOrder.SetAsc` from `tree.go`: clears the bit with the Go
`&^` operator; `none` models the panic on `i > 63`. -/
def SortOrder.SetAsc (o : SortOrder) (i : Int) : Option SortOrder :=
  if 63 < i then none
  else
    let s := (63 - i).toNat
    let mask := (1 <<< s) % 2 ^ 64
    some ⟨o.val &&& (18446744073709551615 ^^^ mask)⟩

/-- Modelled from the spec: the type lattice of the value encoding
(`internal/types` is not part of the reviewed sources).  A
representative subset of the types is enough for the tree layer, which
inspects values only through their type tag. -/
inductive Ty where
  | null
  | bool
  | int
deriving DecidableEq

/-- Modelled from the spec: the ascending type tag byte of each type. -/
def Ty.tag : Ty → Nat
  | .null => 3
  | .bool => 8
  | .int => 20

/-- Modelled from the spec: `MinEnctype`, a sentinel tag strictly below
every ascending encoded value of the type. -/
def Ty.MinEnctype : Ty → Nat
  | .null => 2
  | .bool => 7
  | .int => 19

/-- Modelled from the spec: `MaxEnctype`, a sentinel tag strictly above
every ascending encoded value of the type. -/
def Ty.MaxEnctype : Ty → Nat
  | .null => 4
  | .bool => 9
  | .int => 21

/-- Modelled from the spec: the descending tag mirrors the ascending
one through byte complement. -/
def Ty.tagDesc (t : Ty) : Nat := 255 - t.tag

/-- Modelled from the spec: `MinEnctypeDesc`, the descending
counterpart of the min sentinel. -/
def Ty.MinEnctypeDesc (t : Ty) : Nat := 255 - t.MaxEnctype

/-- Modelled from the spec: `MaxEnctypeDesc`, the descending
counterpart of the max sentinel. -/
def Ty.MaxEnctypeDesc (t : Ty) : Nat := 255 - t.MinEnctype

/-- Modelled from the spec: a typed value of the (restricted) lattice. -/
inductive Value where
  | null
  | bool (b : Bool)
  | int (n : Int)
deriving DecidableEq

/-- The type of a value (`Value.Type()` in Go). -/
def Value.ty : Value → Ty
  | .null => .null
  | .bool _ => .bool
  | .int _ => .int

/-- Modelled from the spec: the ascending payload of a value; the int
payload is the big-endian sign-flipped 8 byte form, so that byte order
matches numeric order. -/
def Value.payload : Value → Bytes
  | .null => []
  | .bool b => [if b then 1 else 0]
  | .int n => beBytes 8 ((n + 9223372036854775808).toNat % 18446744073709551616)

/-- Modelled from the spec: a value encodes as its type tag followed by
its payload; the descending form uses the descending tag and the byte
complement of the payload. -/
def encodeValue (desc : Bool) (v : Value) : Bytes :=
  if desc then v.ty.tagDesc :: v.payload.map (fun b => 255 - b)
  else v.ty.tag :: v.payload

/-- Modelled from the spec: the composite `Key` of the tree layer (the
`Key` source file is not part of the reviewed sources); an ordered
tuple of typed values. -/
structure Key where
  values : List Value
deriving DecidableEq

/-- `NewKey` from the tree package. -/
def NewKey (vs : List Value) : Key := ⟨vs⟩

/-- The direction bit of component `i`; under the arity bound of
`Key.Encode` the index never exceeds 63, so the Go call
`order.IsDesc(i)` always returns, and the default of `getD` is never
taken. -/
def descBit (o : SortOrder) (i : Nat) : Bool :=
  (o.IsDesc i).getD false

/-- Modelled from the spec: `Key.Encode` concatenates the encoded
namespace and each component under its per-index direction bit, and
fails fast when the arity exceeds 64. -/
def Key.Encode (k : Key) (ns : Nat) (o : SortOrder) : Except String Bytes :=
  if 64 < k.values.length then .error "runtime error: key arity above 64"
  else .ok (encodeInt ns ++
    (k.values.enum.map (fun p => encodeValue (descBit o p.1) p.2)).flatten)

/-- A `Range` of keys to iterate on (`tree.go`).  `Min` and `Max` are
inclusive by default and both excluded when `Exclusive` is set. -/
structure Range where
  Min : Option Key
  Max : Option Key
  Exclusive : Bool

/-- A `Tree` owns a namespace and a sort order and delegates bytes to
the session (`tree.go`); the session state is threaded explicitly as a
`Store` argument of each operation. -/
structure Tree where
  Namespace : Nat
  Order : SortOrder

/-- `buildFirstKey` from `tree.go`: the encoding of the empty key, the
least key of the namespace. -/
def Tree.buildFirstKey (t : Tree) : Except String Bytes :=
  (NewKey []).Encode t.Namespace t.Order

/-- `buildLastKey` from `tree.go`: the encoded namespace followed by
`0xFF`. -/
def Tree.buildLastKey (t : Tree) : Bytes :=
  encodeInt t.Namespace ++ [255]

/-- `buildMinKeyForType` from `tree.go`: the type-aware open lower
bound synthesized from the max key.  The Go slice expression
`max.values[:len-1]` panics on a key of zero arity; the panic is
modelled by an error result. -/
def Tree.buildMinKeyForType (t : Tree) (mx : Option Key) (desc : Bool) :
    Except String Bytes :=
  match mx with
  | none => t.buildFirstKey
  | some mx =>
    if mx.values.length = 1 then
      match mx.values.head? with
      | none => .error "runtime error: index out of range"
      | some v =>
        let buf := encodeInt t.Namespace
        if desc then .ok (buf ++ [v.ty.MinEnctypeDesc])
        else .ok (buf ++ [v.ty.MinEnctype])
    else
      match mx.values.getLast? with
      | none => .error "runtime error: slice bounds out of range"
      | some lastv =>
        match (NewKey mx.values.dropLast).Encode t.Namespace t.Order with
        | .error e => .error e
        | .ok buf =>
          if desc then .ok (buf ++ [lastv.ty.MinEnctypeDesc])
          else .ok (buf ++ [lastv.ty.MinEnctype])

/-- `buildMaxKeyForType` from `tree.go`: the type-aware open upper
bound synthesized from the min key. -/
def Tree.buildMaxKeyForType (t : Tree) (mn : Option Key) (desc : Bool) :
    Except String Bytes :=
  match mn with
  | none => .ok t.buildLastKey
  | some mn =>
    if mn.values.length = 1 then
      match mn.values.head? with
      | none => .error "runtime error: index out of range"
      | some v =>
        let buf := encodeInt t.Namespace
        if desc then .ok (buf ++ [v.ty.MaxEnctypeDesc])
        else .ok (buf ++ [v.ty.MaxEnctype])
    else
      match mn.values.getLast? with
      | none => .error "runtime error: slice bounds out of range"
      | some lastv =>
        match (NewKey mn.values.dropLast).Encode t.Namespace t.Order with
        | .error e => .error e
        | .ok buf =>
          if desc then .ok (buf ++ [lastv.ty.MaxEnctypeDesc])
          else .ok (buf ++ [lastv.ty.MaxEnctype])

/-- `buildStartKeyInclusive` from `tree.go`. -/
def Tree.buildStartKeyInclusive (t : Tree) (key : Key) (desc : Bool) :
    Except String Bytes :=
  key.Encode t.Namespace t.Order

/-- `buildStartKeyExclusive` from `tree.go`: the encoded key followed
by `0xFF`. -/
def Tree.buildStartKeyExclusive (t : Tree) (key : Key) (desc : Bool) :
    Except String Bytes :=
  match key.Encode t.Namespace t.Order with
  | .error e => .error e
  | .ok b => .ok (b ++ [255])

/-- `buildEndKeyInclusive` from `tree.go`: the encoded key followed by
`0xFF`. -/
def Tree.buildEndKeyInclusive (t : Tree) (key : Key) (desc : Bool) :
    Except String Bytes :=
  match key.Encode t.Namespace t.Order with
  | .error e => .error e
  | .ok b => .ok (b ++ [255])

/-- `buildEndKeyExclusive` from `tree.go`. -/
def Tree.buildEndKeyExclusive (t : Tree) (key : Key) (desc : Bool) :
    Except String Bytes :=
  key.Encode t.Namespace t.Order

/-- `buildInclusiveBoundaries` from `tree.go`. -/
def Tree.buildInclusiveBoundaries (t : Tree) (mn mx : Option Key) (desc : Bool) :
    Except String (Bytes × Bytes) :=
  match (match mn with
         | none => t.buildMinKeyForType mx desc
         | some k => t.buildStartKeyInclusive k desc) with
  | .error e => .error e
  | .ok start =>
    match (match mx with
           | none => t.buildMaxKeyForType mn desc
           | some k => t.buildEndKeyInclusive k desc) with
    | .error e => .error e
    | .ok stop => .ok (start, stop)

/-- `buildExclusiveBoundaries` from `tree.go`. -/
def Tree.buildExclusiveBoundaries (t : Tree) (mn mx : Option Key) (desc : Bool) :
    Except String (Bytes × Bytes) :=
  match (match mn with
         | none => t.buildMinKeyForType mx desc
         | some k => t.buildStartKeyExclusive k desc) with
  | .error e => .error e
  | .ok start =>
    match (match mx with
           | none => t.buildMaxKeyForType mn desc
           | some k => t.buildEndKeyExclusive k desc) with
    | .error e => .error e
    | .ok stop => .ok (start, stop)

/-- `isDescRange` from `tree.go`: the direction of a range is that of
the last component of `Min`, else of `Max`, else ascending.  The Go
index expression is `len(values) - 1` over `int`, so a key of zero
arity probes index `-1`; `none` models the panic of `IsDesc` on an
index above 63. -/
def Tree.isDescRange (t : Tree) (rng : Range) : Option Bool :=
  match rng.Min with
  | some k => t.Order.IsDesc ((k.values.length : Int) - 1)
  | none =>
    match rng.Max with
    | some k => t.Order.IsDesc ((k.values.length : Int) - 1)
    | none => some false

/-- Modelled from the spec: the state of the byte-level session, a
finite map from encoded keys to stored values, kept sorted by
`bytesLt` so that iteration order is the byte order of the store
(spec section 4.D; the engine package is not part of the reviewed
sources). -/
abbrev Store := List (Bytes × Bytes)

/-- Lookup of a key in the session state. -/
def Store.get : Store → Bytes → Option Bytes
  | [], _ => none
  | e :: rest, k => if e.1 = k then some e.2 else Store.get rest k

/-- Modelled from the spec: `Session.Put`, an upsert that keeps the
store sorted. -/
def sPut (k v : Bytes) : Store → Store
  | [] => [(k, v)]
  | (k1, v1) :: rest =>
    if bytesLt k k1 then (k, v) :: (k1, v1) :: rest
    else if k = k1 then (k, v) :: rest
    else (k1, v1) :: sPut k v rest

/-- Modelled from the spec: `Session.Insert` fails with
`KeyAlreadyExists` on a duplicate key. -/
def sInsert (s : Store) (k v : Bytes) : Except String Store :=
  match s.get k with
  | some _ => .error "KeyAlreadyExists"
  | none => .ok (sPut k v s)

/-- Modelled from the spec: `Session.Get` fails with `KeyNotFound` on
an absent key. -/
def sGet (s : Store) (k : Bytes) : Except String Bytes :=
  match s.get k with
  | some v => .ok v
  | none => .error "KeyNotFound"

/-- Modelled from the spec: `Session.Delete` fails with `KeyNotFound`
on an absent key. -/
def sDelete (s : Store) (k : Bytes) : Except String Store :=
  match s.get k with
  | some _ => .ok (s.filter (fun e => !(e.1 == k)))
  | none => .error "KeyNotFound"

/-- Whether `k` lies in the half-open byte interval `[lo, hi)` of the
session iterator semantics. -/
def inRange (lo hi k : Bytes) : Bool :=
  bytesLe lo k && bytesLt k hi

/-- Modelled from the spec: `Session.DeleteRange` removes every key of
the half-open interval `[lo, hi)`. -/
def sDeleteRange (s : Store) (lo hi : Bytes) : Store :=
  s.filter (fun e => !(inRange lo hi e.1))

/-- The entries a session iterator with bounds `[lo, hi)` walks, in
store (byte) order. -/
def iterEntries (s : Store) (lo hi : Bytes) : List (Bytes × Bytes) :=
  s.filter (fun e => inRange lo hi e.1)

/-- `defaultValue` from `tree.go`: the single zero byte stored in
place of an empty value. -/
def defaultValue : Bytes := [0]

/-- `Tree.Insert` from `tree.go`: an empty value is replaced by the
`{0x00}` sentinel before the session insert. -/
def Tree.Insert (t : Tree) (s : Store) (key : Key) (value : Bytes) :
    Except String Store :=
  let value := if value.length = 0 then defaultValue else value
  match key.Encode t.Namespace t.Order with
  | .error e => .error e
  | .ok k => sInsert s k value

/-- `Tree.Put` from `tree.go`: as `Insert` but through the session
upsert. -/
def Tree.Put (t : Tree) (s : Store) (key : Key) (value : Bytes) :
    Except String Store :=
  let value := if value.length = 0 then defaultValue else value
  match key.Encode t.Namespace t.Order with
  | .error e => .error e
  | .ok k => .ok (sPut k value s)

/-- `Tree.Get` from `tree.go`: a stored value that is empty or starts
with the zero byte reads back as no value (`none`); anything else is
returned verbatim. -/
def Tree.Get (t : Tree) (s : Store) (key : Key) :
    Except String (Option Bytes) :=
  match key.Encode t.Namespace t.Order with
  | .error e => .error e
  | .ok k =>
    match sGet s k with
    | .error e => .error e
    | .ok v =>
      if v.length = 0 ∨ v.head? = some 0 then .ok none
      else .ok (some v)

/-- `Tree.Exists` from `tree.go`. -/
def Tree.Exists (t : Tree) (s : Store) (key : Key) : Except String Bool :=
  match key.Encode t.Namespace t.Order with
  | .error e => .error e
  | .ok k => .ok (s.get k).isSome

/-- `Tree.Delete` from `tree.go`. -/
def Tree.Delete (t : Tree) (s : Store) (key : Key) : Except String Store :=
  match key.Encode t.Namespace t.Order with
  | .error e => .error e
  | .ok k => sDelete s k

/-- `Tree.Truncate` from `tree.go`: a single `DeleteRange` over the
half-open interval between the encodings of the namespace and of its
successor. -/
def Tree.Truncate (t : Tree) (s : Store) : Except String Store :=
  .ok (sDeleteRange s (encodeInt t.Namespace) (encodeInt (t.Namespace + 1)))

/-- The `{0x00}` sentinel rule applied on read inside the iteration
loop of `tree.go` (lines 217 to 219): an empty value or one starting
with the zero byte is surfaced as no value. -/
def sentinelDecode (v : Bytes) : Option Bytes :=
  if v.length = 0 ∨ v.head? = some 0 then none else some v

/-- The iteration loop of `Tree.IterateOnRange` (`tree.go` lines 208
to 233) over the positions of an open session iterator.  Each position
carries the raw key and the result of `it.Value()`, which the session
may fail; `termErr` is the terminal `it.Error()`.  The second
component of the result models the `defer it.Close()`: it reports
whether the iterator was closed on the taken exit path. -/
def runIter (fn : Bytes → Option Bytes → Except String Unit) :
    List (Bytes × Except String Bytes) → Option String →
    Except String Unit × Bool
  | [], termErr =>
    (match termErr with
     | some e => .error e
     | none => .ok (), true)
  | (k, vres) :: rest, termErr =>
    match vres with
    | .error e => (.error e, true)
    | .ok v =>
      match fn k (sentinelDecode v) with
      | .error e => (.error e, true)
      | .ok _ => runIter fn rest termErr

/-- The first error an iteration walk meets, scanning positions in
order: at each position the value read is checked first, then the
callback runs on the decoded value.  This is the specification-side
description of the short-circuit behaviour. -/
def firstFailure (fn : Bytes → Option Bytes → Except String Unit) :
    List (Bytes × Except String Bytes) → Option String
  | [] => none
  | (k, vres) :: rest =>
    match vres with
    | .error e => some e
    | .ok v =>
      match fn k (sentinelDecode v) with
      | .error e => some e
      | .ok _ => firstFailure fn rest

/-- The boundary computation of `Tree.IterateOnRange` (`tree.go` lines
175 to 190): resolve the direction, swap `Min` and `Max` when the
range is descending, and synthesize inclusive or exclusive bounds. -/
def Tree.rangeBounds (t : Tree) (rng : Range) : Except String (Bytes × Bytes) :=
  match t.isDescRange rng with
  | none => .error "runtime error: sort order index above 63"
  | some desc =>
    let p := if !desc then (rng.Min, rng.Max) else (rng.Max, rng.Min)
    if !rng.Exclusive then t.buildInclusiveBoundaries p.1 p.2 desc
    else t.buildExclusiveBoundaries p.1 p.2 desc

/-- `Tree.IterateOnRange` from `tree.go`: build the boundaries, open a
session iterator on the half-open byte interval, position at the first
(or, reversed, last) entry and run the loop.  A `nil` range pointer is
replaced by the empty range.  Iterators of the modelled session read
values and terminate without error. -/
def Tree.IterateOnRange (t : Tree) (s : Store) (rng : Option Range)
    (reverse : Bool) (fn : Bytes → Option Bytes → Except String Unit) :
    Except String Unit :=
  let rng := rng.getD ⟨none, none, false⟩
  match t.rangeBounds rng with
  | .error e => .error e
  | .ok bounds =>
    let ents := (iterEntries s bounds.1 bounds.2).map (fun e => (e.1, Except.ok e.2))
    (runIter fn (if reverse then ents.reverse else ents) none).1

/-- `New` from `tree.go`. -/
def New (ns : Nat) (order : SortOrder) : Tree := ⟨ns, order⟩

/-- `NewTransient` from `tree.go`: iterate over the namespace and fail
on the first pre-existing key, otherwise hand back the tree together
with its cleanup handle, which is `Tree.Truncate`. -/
def NewTransient (ns : Nat) (order : SortOrder) (s : Store) :
    Except String (Tree × (Store → Except String Store)) :=
  let t : Tree := ⟨ns, order⟩
  match t.IterateOnRange s none false
      (fun _ _ => .error "namespace is already in use") with
  | .error e => .error e
  | .ok _ => .ok (t, t.Truncate)

/-- Modelled from the spec: a row or document of the layer above the
tree; the conflict hooks treat it opaquely. -/
structure Document where
  dId : Nat
deriving DecidableEq

/-- Modelled from the spec: the primary-key binding of a table. -/
structure PrimaryKey where
  idx : Nat
deriving DecidableEq

/-- Modelled from the spec: the table metadata consulted by the
conflict hooks. -/
structure TableInfo where
  primaryKey : PrimaryKey

/-- `Info.GetPrimaryKey()` of the table layer (modelled from the
spec). -/
def TableInfo.GetPrimaryKey (i : TableInfo) : PrimaryKey := i.primaryKey

/-- Modelled from the spec: the table a conflict hook acts on; the
outcome of its `Replace` operation is part of the model state
(`none` is success). -/
structure Table where
  Info : TableInfo
  replaceOutcome : Bytes → Document → Option String

/-- `Table.Replace` (modelled from the spec): replace the row stored
at a primary key, reporting only an error outcome. -/
def Table.Replace (t : Table) (k : Bytes) (d : Document) : Option String :=
  t.replaceOutcome k d

/-- The document a conflict hook hands back: either the incoming
document as is, or the incoming document annotated with its key and
the primary key of the table (`documentWithKey` in the source). -/
inductive ConflictDoc where
  | plain (d : Document)
  | withKey (d : Document) (key : Bytes) (pk : PrimaryKey)
deriving DecidableEq

/-- `OnInsertConflictDoNothing` (four-argument form of the conflict
hooks source): ignore the duplicate error and return nothing. -/
def OnInsertConflictDoNothing (t : Table) (key : Option Bytes)
    (d : Document) (err : Option String) : Option ConflictDoc × Option String :=
  (none, none)

/-- `OnInsertConflictDoNothing` of `internal/database/conflict.go`,
the three-argument variant without the triggering error. -/
def OnInsertConflictDoNothingNoErr (t : Table) (key : Option Bytes)
    (d : Document) : Option ConflictDoc × Option String :=
  (none, none)

/-- `OnInsertConflictDoReplace` from the conflict hooks source: with a
nil key return the document and the original error unchanged;
otherwise replace through the table and return the annotated document,
or propagate the replace error. -/
def OnInsertConflictDoReplace (t : Table) (key : Option Bytes)
    (d : Document) (err : Option String) : Option ConflictDoc × Option String :=
  match key with
  | none => (some (.plain d), err)
  | some k =>
    match t.Replace k d with
    | some e => (none, some e)
    | none => (some (.withKey d k t.Info.GetPrimaryKey), none)

theorem isDesc_neg_one (o : SortOrder) : o.IsDesc (-1) = some false := by
  unfold SortOrder.IsDesc
  rw [if_neg (by norm_num)]
  have h1 : ((63 : Int) - (-1)).toNat = 64 := by decide
  have h2 : ((1 : Nat) <<< 64) % 2 ^ 64 = 0 := by norm_num [Nat.shiftLeft_eq]
  simp only [h1, h2, Nat.and_zero, Nat.zero_shiftRight]
  rfl

/-- C1: for every present bound key, boundary synthesis produces the
encoded key as inclusive lower bound, the encoded key followed by
`0xFF` as exclusive lower bound, the encoded key followed by `0xFF` as
inclusive upper bound, and the encoded key as exclusive upper bound;
under the half-open `[lo, hi)` iterator semantics the encoded key
itself is admitted by both inclusive bounds and rejected by both
exclusive bounds. -/
theorem boundary_synthesis_c1 (t : Tree) (k : Key) (desc : Bool) (b : Bytes)
    (henc : k.Encode t.Namespace t.Order = .ok b) :
    t.buildStartKeyInclusive k desc = .ok b ∧
    t.buildStartKeyExclusive k desc = .ok (b ++ [255]) ∧
    t.buildEndKeyInclusive k desc = .ok (b ++ [255]) ∧
    t.buildEndKeyExclusive k desc = .ok b ∧
    bytesLe b b = true ∧
    bytesLt b (b ++ [255]) = true ∧
    bytesLe (b ++ [255]) b = false ∧
    bytesLt b b = false := by
  refine ⟨henc, ?_, ?_, henc, bytesLe_refl b, bytesLt_append_cons b 255 [], ?_,
    bytesLt_irrefl b⟩
  · simp [Tree.buildStartKeyExclusive, henc]
  · simp [Tree.buildEndKeyInclusive, henc]
  · simp [bytesLe, bytesLt_append_cons]

theorem boundary_synthesis_c1_witness :
    Tree.buildStartKeyInclusive ⟨3, ⟨0⟩⟩ ⟨[Value.bool true]⟩ false = .ok [1, 3, 8, 1] ∧
    Tree.buildStartKeyExclusive ⟨3, ⟨0⟩⟩ ⟨[Value.bool true]⟩ false = .ok [1, 3, 8, 1, 255] ∧
    Tree.buildEndKeyInclusive ⟨3, ⟨0⟩⟩ ⟨[Value.bool true]⟩ false = .ok [1, 3, 8, 1, 255] ∧
    Tree.buildEndKeyExclusive ⟨3, ⟨0⟩⟩ ⟨[Value.bool true]⟩ false = .ok [1, 3, 8, 1] ∧
    bytesLe [1, 3, 8, 1] [1, 3, 8, 1] = true ∧
    bytesLt [1, 3, 8, 1] ([1, 3, 8, 1] ++ [255]) = true ∧
    bytesLe ([1, 3, 8, 1] ++ [255]) [1, 3, 8, 1] = false ∧
    bytesLt [1, 3, 8, 1] [1, 3, 8, 1] = false := by
  have h := boundary_synthesis_c1 ⟨3, ⟨0⟩⟩ ⟨[Value.bool true]⟩ false [1, 3, 8, 1] (by rfl)
  simpa using h

/-- C2: the direction of a range is that of the last component of its
Min key under the sort order of the tree, else of its Max key, else
ascending; when descending, the boundary computation of
`IterateOnRange` swaps the roles of Min and Max. -/
theorem desc_range_direction_c2 (t : Tree) (rng : Range) (k : Key) (n : Nat) :
    (rng.Min = some k → k.values.length = n + 1 →
      t.isDescRange rng = t.Order.IsDesc (n : Int)) ∧
    (rng.Min = none → rng.Max = some k → k.values.length = n + 1 →
      t.isDescRange rng = t.Order.IsDesc (n : Int)) ∧
    (rng.Min = none → rng.Max = none → t.isDescRange rng = some false) ∧
    (t.isDescRange rng = some true →
      t.rangeBounds rng =
        if rng.Exclusive then t.buildExclusiveBoundaries rng.Max rng.Min true
        else t.buildInclusiveBoundaries rng.Max rng.Min true) := by
  refine ⟨?_, ?_, ?_, ?_⟩
  · intro h1 h2
    have hc : ((k.values.length : Int) - 1) = (n : Int) := by omega
    simp [Tree.isDescRange, h1, hc]
  · intro h1 h2 h3
    have hc : ((k.values.length : Int) - 1) = (n : Int) := by omega
    simp [Tree.isDescRange, h1, h2, hc]
  · intro h1 h2
    simp [Tree.isDescRange, h1, h2]
  · intro h
    unfold Tree.rangeBounds
    rw [h]
    cases hE : rng.Exclusive <;> simp [hE]

theorem desc_range_direction_c2_witness :
    Tree.isDescRange ⟨4, ⟨9223372036854775808⟩⟩
      ⟨some ⟨[Value.int 1]⟩, none, false⟩ = SortOrder.IsDesc ⟨9223372036854775808⟩ 0 ∧
    Tree.rangeBounds ⟨4, ⟨9223372036854775808⟩⟩
      ⟨some ⟨[Value.int 1]⟩, none, false⟩ =
      Tree.buildInclusiveBoundaries ⟨4, ⟨9223372036854775808⟩⟩ none
        (some ⟨[Value.int 1]⟩) true := by
  constructor
  · exact (desc_range_direction_c2 ⟨4, ⟨9223372036854775808⟩⟩
      ⟨some ⟨[Value.int 1]⟩, none, false⟩ ⟨[Value.int 1]⟩ 0).1 rfl rfl
  · exact (desc_range_direction_c2 ⟨4, ⟨9223372036854775808⟩⟩
      ⟨some ⟨[Value.int 1]⟩, none, false⟩ ⟨[Value.int 1]⟩ 0).2.2.2 (by rfl)

/-- C3: synthesis of the open bound opposite a single given key: for a
key of arity one it is the encoded namespace followed by the min
(resp. max) sentinel tag of the type of the single component, in its
descending form when the effective direction is descending; for arity
above one it is the encoding of the first `n - 1` components followed
by the sentinel tag of the type of component `n`. -/
theorem open_bound_synthesis_c3 (t : Tree) (desc : Bool) (v : Value)
    (vs : List Value) (pb : Bytes) :
    (t.buildMinKeyForType (some ⟨[v]⟩) desc =
      .ok (encodeInt t.Namespace ++
        [if desc then v.ty.MinEnctypeDesc else v.ty.MinEnctype])) ∧
    (t.buildMaxKeyForType (some ⟨[v]⟩) desc =
      .ok (encodeInt t.Namespace ++
        [if desc then v.ty.MaxEnctypeDesc else v.ty.MaxEnctype])) ∧
    (vs ≠ [] → Key.Encode ⟨vs⟩ t.Namespace t.Order = .ok pb →
      t.buildMinKeyForType (some ⟨vs ++ [v]⟩) desc =
        .ok (pb ++ [if desc then v.ty.MinEnctypeDesc else v.ty.MinEnctype])) ∧
    (vs ≠ [] → Key.Encode ⟨vs⟩ t.Namespace t.Order = .ok pb →
      t.buildMaxKeyForType (some ⟨vs ++ [v]⟩) desc =
        .ok (pb ++ [if desc then v.ty.MaxEnctypeDesc else v.ty.MaxEnctype])) := by
  refine ⟨?_, ?_, ?_, ?_⟩
  · cases desc <;> simp [Tree.buildMinKeyForType]
  · cases desc <;> simp [Tree.buildMaxKeyForType]
  · intro hvs henc
    have hlen : (vs ++ [v]).length ≠ 1 := by
      cases vs with
      | nil => exact absurd rfl hvs
      | cons x xs => simp
    cases desc <;>
      simp [Tree.buildMinKeyForType, hlen, hvs, List.getLast?_concat,
        List.dropLast_concat, NewKey, henc]
  · intro hvs henc
    have hlen : (vs ++ [v]).length ≠ 1 := by
      cases vs with
      | nil => exact absurd rfl hvs
      | cons x xs => simp
    cases desc <;>
      simp [Tree.buildMaxKeyForType, hlen, hvs, List.getLast?_concat,
        List.dropLast_concat, NewKey, henc]

theorem open_bound_synthesis_c3_witness :
    Tree.buildMinKeyForType ⟨7, ⟨0⟩⟩ (some ⟨[Value.bool true]⟩) false =
      .ok (encodeInt 7 ++ [Ty.MinEnctype Ty.bool]) ∧
    Tree.buildMaxKeyForType ⟨7, ⟨0⟩⟩
      (some ⟨[Value.bool false, Value.int 0]⟩) false =
      .ok ([1, 7, 8, 0] ++ [Ty.MaxEnctype Ty.int]) := by
  constructor
  · exact (open_bound_synthesis_c3 ⟨7, ⟨0⟩⟩ false (Value.bool true) [] []).1
  · exact (open_bound_synthesis_c3 ⟨7, ⟨0⟩⟩ false (Value.int 0)
      [Value.bool false] [1, 7, 8, 0]).2.2.2 (by simp) (by rfl)

/-- C8 counterexample: at index `-1`, which lies outside `[0, 63]`,
none of the three sort order operations fails: the bounds check of the
source rejects only indices above 63, and the over-wide shifts give a
zero mask, so `IsDesc` answers ascending and the two setters return
the order unchanged.  This refutes the claim that every index outside
`[0, 63]` fails loudly. -/
theorem sort_order_c8_counterexample :
    SortOrder.IsDesc ⟨0⟩ (-1) = some false ∧
    SortOrder.SetDesc ⟨0⟩ (-1) = some ⟨0⟩ ∧
    SortOrder.SetAsc ⟨0⟩ (-1) = some ⟨0⟩ := by
  refine ⟨isDesc_neg_one ⟨0⟩, rfl, rfl⟩

/-- C8 (amended): for every index greater than 63 the three sort order
operations fail loudly; for every index in `[0, 63]` they complete
without failing; and the zero sort order answers `IsDesc` with false
(all ascending) on every index in `[0, 63]`. -/
theorem sort_order_bounds_c8 (o : SortOrder) (i : Int) :
    (63 < i → o.IsDesc i = none ∧ o.SetDesc i = none ∧ o.SetAsc i = none) ∧
    (0 ≤ i → i ≤ 63 →
      (o.IsDesc i).isSome = true ∧ (o.SetDesc i).isSome = true ∧
      (o.SetAsc i).isSome = true) ∧
    (0 ≤ i → i ≤ 63 → SortOrder.IsDesc ⟨0⟩ i = some false) := by
  refine ⟨?_, ?_, ?_⟩
  · intro h
    simp [SortOrder.IsDesc, SortOrder.SetDesc, SortOrder.SetAsc, h]
  · intro h1 h2
    have h : ¬ 63 < i := by omega
    simp [SortOrder.IsDesc, SortOrder.SetDesc, SortOrder.SetAsc, h]
  · intro h1 h2
    have h : ¬ 63 < i := by omega
    simp [SortOrder.IsDesc, h, Nat.zero_and, Nat.zero_shiftRight]

theorem sort_order_bounds_c8_witness :
    (SortOrder.IsDesc ⟨0⟩ 64 = none ∧ SortOrder.SetDesc ⟨0⟩ 64 = none ∧
      SortOrder.SetAsc ⟨0⟩ 64 = none) ∧
    SortOrder.IsDesc ⟨0⟩ 5 = some false :=
  ⟨(sort_order_bounds_c8 ⟨0⟩ 64).1 (by norm_num),
   (sort_order_bounds_c8 ⟨0⟩ 5).2.2 (by norm_num) (by norm_num)⟩

/-- C10: probing the sort order at index `-1` answers ascending
without failing, because the bounds check rejects only indices above
63 and the over-wide shift yields a zero mask; hence a range whose
Min key (or, Min absent, whose Max key) has zero components is treated
as ascending by `isDescRange`, and the boundary computation of
`IterateOnRange` proceeds unswapped instead of failing loudly. -/
theorem zero_arity_direction_c10 (o : SortOrder) (t : Tree) (rng : Range)
    (k : Key) :
    o.IsDesc (-1) = some false ∧
    (rng.Min = some k → k.values = [] → t.isDescRange rng = some false) ∧
    (rng.Min = none → rng.Max = some k → k.values = [] →
      t.isDescRange rng = some false) ∧
    (rng.Min = some k → k.values = [] →
      t.rangeBounds rng =
        if rng.Exclusive then t.buildExclusiveBoundaries rng.Min rng.Max false
        else t.buildInclusiveBoundaries rng.Min rng.Max false) := by
  have hmin : rng.Min = some k → k.values = [] →
      t.isDescRange rng = some false := by
    intro h1 h2
    have hc : ((k.values.length : Int) - 1) = -1 := by simp [h2]
    simp [Tree.isDescRange, h1, hc, isDesc_neg_one]
  refine ⟨isDesc_neg_one o, hmin, ?_, ?_⟩
  · intro h1 h2 h3
    have hc : ((k.values.length : Int) - 1) = -1 := by simp [h3]
    simp [Tree.isDescRange, h1, h2, hc, isDesc_neg_one]
  · intro h1 h2
    unfold Tree.rangeBounds
    rw [hmin h1 h2]
    cases hE : rng.Exclusive <;> simp [hE]

theorem zero_arity_direction_c10_witness :
    Tree.isDescRange ⟨5, ⟨0⟩⟩ ⟨some ⟨[]⟩, none, false⟩ = some false ∧
    Tree.rangeBounds ⟨5, ⟨0⟩⟩ ⟨some ⟨[]⟩, none, false⟩ =
      Tree.buildInclusiveBoundaries ⟨5, ⟨0⟩⟩ (some ⟨[]⟩) none false := by
  have h := zero_arity_direction_c10 ⟨0⟩ ⟨5, ⟨0⟩⟩ ⟨some ⟨[]⟩, none, false⟩ ⟨[]⟩
  exact ⟨h.2.1 rfl rfl, h.2.2.2 rfl rfl⟩

/-- C7: within the iteration loop, the first error from reading a
value at the current position or from the callback on the decoded
value terminates the walk and becomes the result; when no such error
occurs, the terminal error of the iterator, if any, is returned; and
the iterator is closed on every exit path. -/
theorem iterate_errors_c7 (fn : Bytes → Option Bytes → Except String Unit)
    (entries : List (Bytes × Except String Bytes)) (termErr : Option String) :
    (runIter fn entries termErr).2 = true ∧
    (runIter fn entries termErr).1 =
      (match firstFailure fn entries with
       | some e => .error e
       | none =>
         match termErr with
         | some e => .error e
         | none => .ok ()) := by
  induction entries with
  | nil => cases termErr <;> simp [runIter, firstFailure]
  | cons e rest ih =>
    obtain ⟨k, vres⟩ := e
    cases vres with
    | error e2 => simp [runIter, firstFailure]
    | ok v =>
      cases hfn : fn k (sentinelDecode v) with
      | error e2 => simp [runIter, firstFailure, hfn]
      | ok u => simpa [runIter, firstFailure, hfn] using ih

/-- C9: `OnInsertConflictDoNothing` returns no document and no error;
`OnInsertConflictDoReplace` surfaces the original triggering error
unchanged when no key is known, and otherwise replaces through the
table and returns the incoming document annotated with the key and the
primary key of the table, propagating a replace error instead of a
result. -/
theorem conflict_actions_c9 (t : Table) (key : Bytes) (d : Document)
    (err : Option String) :
    OnInsertConflictDoNothing t (some key) d err = (none, none) ∧
    OnInsertConflictDoNothing t none d err = (none, none) ∧
    OnInsertConflictDoNothingNoErr t (some key) d = (none, none) ∧
    (OnInsertConflictDoReplace t none d err).2 = err ∧
    (∀ e, t.Replace key d = some e →
      OnInsertConflictDoReplace t (some key) d err = (none, some e)) ∧
    (t.Replace key d = none →
      OnInsertConflictDoReplace t (some key) d err =
        (some (.withKey d key t.Info.GetPrimaryKey), none)) := by
  refine ⟨rfl, rfl, rfl, rfl, ?_, ?_⟩
  · intro e he
    simp [OnInsertConflictDoReplace, he]
  · intro he
    simp [OnInsertConflictDoReplace, he]

theorem conflict_actions_c9_witness :
    OnInsertConflictDoNothing ⟨⟨⟨0⟩⟩, fun _ _ => none⟩ (some [1]) ⟨2⟩ none =
      (none, none) ∧
    OnInsertConflictDoReplace ⟨⟨⟨0⟩⟩, fun _ _ => none⟩ (some [1]) ⟨2⟩ none =
      (some (.withKey ⟨2⟩ [1] ⟨0⟩), none) := by
  have h := conflict_actions_c9 ⟨⟨⟨0⟩⟩, fun _ _ => none⟩ [1] ⟨2⟩ none
  exact ⟨h.1, h.2.2.2.2.2 rfl⟩

theorem Store.get_sPut_self (s : Store) (k v : Bytes) :
    Store.get (sPut k v s) k = some v := by
  induction s with
  | nil => simp [sPut, Store.get]
  | cons e rest ih =>
    obtain ⟨k1, v1⟩ := e
    by_cases h1 : bytesLt k k1 = true
    · simp [sPut, h1, Store.get]
    · by_cases h2 : k = k1
      · subst h2
        simp [sPut, h1, Store.get]
      · simp [sPut, h1, h2, Store.get, Ne.symm h2, ih]

theorem Store.get_filter_keep (s : Store) (p : Bytes → Bool) (k : Bytes)
    (h : p k = true) :
    Store.get (s.filter (fun e => p e.1)) k = Store.get s k := by
  induction s with
  | nil => rfl
  | cons e rest ih =>
    obtain ⟨k1, v1⟩ := e
    by_cases h1 : k1 = k
    · subst h1
      simp [List.filter_cons, h, Store.get]
    · cases h2 : p k1 with
      | true => simp [List.filter_cons, h2, Store.get, h1, ih]
      | false => simp [List.filter_cons, h2, Store.get, h1, ih]

theorem Store.get_filter_drop (s : Store) (p : Bytes → Bool) (k : Bytes)
    (h : p k = false) :
    Store.get (s.filter (fun e => p e.1)) k = none := by
  induction s with
  | nil => rfl
  | cons e rest ih =>
    obtain ⟨k1, v1⟩ := e
    by_cases h1 : k1 = k
    · subst h1
      simp [List.filter_cons, h, Store.get, ih]
    · cases h2 : p k1 with
      | true => simp [List.filter_cons, h2, Store.get, h1, ih]
      | false => simp [List.filter_cons, h2, Store.get, h1, ih]

theorem filter_after_filter_nil (s : Store) (p q : Bytes → Bool)
    (h : ∀ x, q x = true → p x = false) :
    ((s.filter (fun e => p e.1)).filter (fun e => q e.1)) = [] := by
  induction s with
  | nil => rfl
  | cons e rest ih =>
    cases hp : p e.1 with
    | false => simpa [List.filter_cons, hp] using ih
    | true =>
      cases hq : q e.1 with
      | false => simpa [List.filter_cons, hp, hq] using ih
      | true => exact absurd (h _ hq) (by simp [hp])

/-- The bounds `IterateOnRange` derives for the empty range: the full
namespace interval, from the encoded empty key to the encoded
namespace followed by `0xFF`. -/
theorem rangeBounds_empty (t : Tree) :
    t.rangeBounds ⟨none, none, false⟩ =
      .ok (encodeInt t.Namespace, encodeInt t.Namespace ++ [255]) := by
  simp [Tree.rangeBounds, Tree.isDescRange, Tree.buildInclusiveBoundaries,
    Tree.buildMinKeyForType, Tree.buildMaxKeyForType, Tree.buildFirstKey,
    Tree.buildLastKey, Key.Encode, NewKey]

/-- Every key the full-namespace iteration bounds admit lies inside
the truncation interval of the namespace. -/
theorem inRange_within_truncation {ns : Nat} (h64 : ns + 1 < 2 ^ 64)
    {k : Bytes} (h : inRange (encodeInt ns) (encodeInt ns ++ [255]) k = true) :
    inRange (encodeInt ns) (encodeInt (ns + 1)) k = true := by
  unfold inRange at h ⊢
  rw [Bool.and_eq_true] at h ⊢
  refine ⟨h.1, ?_⟩
  have hstep : bytesLt (encodeInt ns ++ [255]) (encodeInt (ns + 1)) = true := by
    have h2 := encodeInt_sep (Nat.lt_succ_self ns) h64 [255] []
    rwa [List.append_nil] at h2
  exact bytesLt_trans h.2 hstep

/-- After deleting the truncation interval of a namespace, the
full-namespace iteration of that namespace sees no entries. -/
theorem iterEntries_truncated (ns : Nat) (h64 : ns + 1 < 2 ^ 64) (s : Store) :
    iterEntries (sDeleteRange s (encodeInt ns) (encodeInt (ns + 1)))
      (encodeInt ns) (encodeInt ns ++ [255]) = [] := by
  unfold iterEntries sDeleteRange
  exact filter_after_filter_nil s
    (fun kk => !inRange (encodeInt ns) (encodeInt (ns + 1)) kk)
    (fun kk => inRange (encodeInt ns) (encodeInt ns ++ [255]) kk)
    (fun x hx => by simp [inRange_within_truncation h64 hx])

/-- Truncation removes every key whose bytes extend the encoded
namespace. -/
theorem get_truncated_none (ns : Nat) (h64 : ns + 1 < 2 ^ 64) (s : Store)
    (rest : Bytes) :
    Store.get (sDeleteRange s (encodeInt ns) (encodeInt (ns + 1)))
      (encodeInt ns ++ rest) = none := by
  unfold sDeleteRange
  have hlt : bytesLt (encodeInt ns ++ rest) (encodeInt (ns + 1)) = true := by
    have h2 := encodeInt_sep (Nat.lt_succ_self ns) h64 rest []
    rwa [List.append_nil] at h2
  exact Store.get_filter_drop s
    (fun kk => !inRange (encodeInt ns) (encodeInt (ns + 1)) kk)
    (encodeInt ns ++ rest) (by simp [inRange, bytesLe_append, hlt])

/-- Truncation of namespace `ns` leaves every key of any other
namespace untouched. -/
theorem get_truncated_other (ns : Nat) (h64 : ns + 1 < 2 ^ 64) (s : Store)
    (m : Nat) (hm : m < 2 ^ 64) (hne : m ≠ ns) (rest : Bytes) :
    Store.get (sDeleteRange s (encodeInt ns) (encodeInt (ns + 1)))
      (encodeInt m ++ rest) =
    Store.get s (encodeInt m ++ rest) := by
  unfold sDeleteRange
  refine Store.get_filter_keep s
    (fun kk => !inRange (encodeInt ns) (encodeInt (ns + 1)) kk)
    (encodeInt m ++ rest) ?_
  rcases Nat.lt_or_ge m ns with hlt | hge
  · have h2 := encodeInt_sep hlt (by omega) rest ([] : Bytes)
    rw [List.append_nil] at h2
    simp [inRange, bytesLe, h2]
  · have hs : ns + 1 ≤ m := by omega
    rcases Nat.eq_or_lt_of_le hs with heq | hlt2
    · have h2 : bytesLt (encodeInt m ++ rest) (encodeInt (ns + 1)) = false := by
        rw [heq]
        exact bytesLt_append_left _ _
      simp [inRange, h2]
    · have h2 := encodeInt_sep hlt2 hm ([] : Bytes) rest
      rw [List.append_nil] at h2
      have h3 := bytesLt_asymm h2
      simp [inRange, h3]

/-- C4: `Insert` and `Put` rewrite a zero-length value to the single
byte `0x00`; `Get` answers no value exactly when the stored bytes are
empty or start with the zero byte, and returns the stored bytes
verbatim otherwise; in particular a `Put` of an empty value followed
by a `Get` answers no value. -/
theorem empty_value_sentinel_c4 (t : Tree) (key : Key) (s : Store) (k : Bytes)
    (henc : key.Encode t.Namespace t.Order = .ok k) :
    (Store.get s k = none → t.Insert s key [] = .ok (sPut k [0] s)) ∧
    t.Put s key [] = .ok (sPut k [0] s) ∧
    (∀ v, Store.get s k = some v →
      t.Get s key = .ok (if v.length = 0 ∨ v.head? = some 0 then none else some v)) ∧
    (∀ v, Store.get s k = some v → v ≠ [] → v.head? ≠ some 0 →
      t.Get s key = .ok (some v)) ∧
    (∀ s2, t.Put s key [] = .ok s2 → t.Get s2 key = .ok none) := by
  refine ⟨?_, ?_, ?_, ?_, ?_⟩
  · intro hget
    simp [Tree.Insert, henc, sInsert, hget, defaultValue]
  · simp [Tree.Put, henc, defaultValue]
  · intro v hget
    simp [Tree.Get, henc, sGet, hget]
    split <;> simp_all
  · intro v hget hne h0
    simp [Tree.Get, henc, sGet, hget, hne, h0]
  · intro s2 h2
    have hs2 : sPut k [0] s = s2 := by
      simpa [Tree.Put, henc, defaultValue] using h2
    subst hs2
    simp [Tree.Get, henc, sGet, Store.get_sPut_self]

theorem empty_value_sentinel_c4_witness :
    Tree.Put ⟨1, ⟨0⟩⟩ [] ⟨[Value.bool false]⟩ [] =
      .ok (sPut [1, 1, 8, 0] [0] []) ∧
    Tree.Get ⟨1, ⟨0⟩⟩ (sPut [1, 1, 8, 0] [0] []) ⟨[Value.bool false]⟩ =
      .ok none := by
  have h := empty_value_sentinel_c4 ⟨1, ⟨0⟩⟩ ⟨[Value.bool false]⟩ []
    [1, 1, 8, 0] (by rfl)
  exact ⟨h.2.1, h.2.2.2.2 (sPut [1, 1, 8, 0] [0] []) h.2.1⟩

/-- C5: `Truncate` is exactly one `DeleteRange` over the half-open
interval from the encoded namespace to the encoded successor
namespace; afterwards the full-namespace iteration of the tree yields
zero keys, every key extending the encoded namespace is gone, and
every key of any other namespace is unchanged. -/
theorem truncate_frame_c5 (t : Tree) (s : Store)
    (h64 : t.Namespace + 1 < 2 ^ 64) :
    t.Truncate s =
      .ok (sDeleteRange s (encodeInt t.Namespace) (encodeInt (t.Namespace + 1))) ∧
    (∀ s2, t.Truncate s = .ok s2 →
      (∀ rest, Store.get s2 (encodeInt t.Namespace ++ rest) = none) ∧
      (∀ fn, t.IterateOnRange s2 none false fn = .ok ()) ∧
      (∀ m rest, m < 2 ^ 64 → m ≠ t.Namespace →
        Store.get s2 (encodeInt m ++ rest) = Store.get s (encodeInt m ++ rest))) := by
  refine ⟨rfl, ?_⟩
  intro s2 h2
  have hs2 : sDeleteRange s (encodeInt t.Namespace) (encodeInt (t.Namespace + 1)) = s2 := by
    simpa [Tree.Truncate] using h2
  subst hs2
  refine ⟨get_truncated_none t.Namespace h64 s, ?_,
    fun m rest hm hne => get_truncated_other t.Namespace h64 s m hm hne rest⟩
  intro fn
  simp [Tree.IterateOnRange, rangeBounds_empty,
    iterEntries_truncated t.Namespace h64 s, runIter]

theorem truncate_frame_c5_witness :
    Store.get (sDeleteRange [([1, 1, 8, 1], [7]), ([1, 2], [9])]
        (encodeInt 1) (encodeInt 2)) (encodeInt 1 ++ [8, 1]) = none ∧
    Store.get (sDeleteRange [([1, 1, 8, 1], [7]), ([1, 2], [9])]
        (encodeInt 1) (encodeInt 2)) (encodeInt 2 ++ []) =
      Store.get [([1, 1, 8, 1], [7]), ([1, 2], [9])] (encodeInt 2 ++ []) := by
  have h := truncate_frame_c5 ⟨1, ⟨0⟩⟩ [([1, 1, 8, 1], [7]), ([1, 2], [9])]
    (by norm_num)
  exact ⟨(h.2 _ h.1).1 [8, 1], (h.2 _ h.1).2.2 2 [] (by norm_num) (by norm_num)⟩

/-- C6: `NewTransient` fails whenever the namespace already holds at
least one key (as seen by the full-namespace preflight iteration) and
returns no tree; on an empty namespace it succeeds and hands back the
tree with `Truncate` as its cleanup handle; and the cleanup handle is
idempotent and leaves the namespace empty after any number of
invocations. -/
theorem transient_preflight_c6 (ns : Nat) (order : SortOrder) (s : Store)
    (h64 : ns + 1 < 2 ^ 64) :
    (iterEntries s (encodeInt ns) (encodeInt ns ++ [255]) ≠ [] →
      NewTransient ns order s = .error "namespace is already in use") ∧
    (iterEntries s (encodeInt ns) (encodeInt ns ++ [255]) = [] →
      NewTransient ns order s = .ok (⟨ns, order⟩, Tree.Truncate ⟨ns, order⟩)) ∧
    (∀ s1 s2, Tree.Truncate ⟨ns, order⟩ s1 = .ok s2 →
      Tree.Truncate ⟨ns, order⟩ s2 = .ok s2 ∧
      iterEntries s2 (encodeInt ns) (encodeInt ns ++ [255]) = [] ∧
      (∀ fn, Tree.IterateOnRange ⟨ns, order⟩ s2 none false fn = .ok ())) := by
  refine ⟨?_, ?_, ?_⟩
  · intro hne
    obtain ⟨e, rest, hE⟩ : ∃ e rest,
        iterEntries s (encodeInt ns) (encodeInt ns ++ [255]) = e :: rest := by
      cases hE : iterEntries s (encodeInt ns) (encodeInt ns ++ [255]) with
      | nil => exact absurd hE hne
      | cons e rest => exact ⟨e, rest, rfl⟩
    simp [NewTransient, Tree.IterateOnRange, rangeBounds_empty, hE, runIter]
  · intro hemp
    simp [NewTransient, Tree.IterateOnRange, rangeBounds_empty, hemp, runIter]
  · intro s1 s2 h2
    have hs2 : sDeleteRange s1 (encodeInt ns) (encodeInt (ns + 1)) = s2 := by
      simpa [Tree.Truncate] using h2
    subst hs2
    refine ⟨?_, iterEntries_truncated ns h64 s1, ?_⟩
    · simp [Tree.Truncate, sDeleteRange, List.filter_filter]
    · intro fn
      simp [Tree.IterateOnRange, rangeBounds_empty,
        iterEntries_truncated ns h64 s1, runIter]

theorem transient_preflight_c6_witness :
    NewTransient 1 ⟨0⟩ [([1, 1, 8, 1], [7])] =
      .error "namespace is already in use" ∧
    NewTransient 1 ⟨0⟩ [] = .ok (⟨1, ⟨0⟩⟩, Tree.Truncate ⟨1, ⟨0⟩⟩) ∧
    Tree.Truncate ⟨1, ⟨0⟩⟩ [] = .ok [] := by
  have h := transient_preflight_c6 1 ⟨0⟩ [([1, 1, 8, 1], [7])] (by norm_num)
  have h0 := transient_preflight_c6 1 ⟨0⟩ [] (by norm_num)
  exact ⟨h.1 (by decide), h0.2.1 (by decide),
    (h.2.2 [([1, 1, 8, 1], [7])] [] (by rfl)).1⟩

end Genji
